import Mathlib

/-!
# NeMo spiking-neural-network simulator: a shallow embedding

This file embeds the core algorithms of the NeMo simulator (CPU backend in
`libnemo/nemo/cpu/Simulation.cpp`, the older CPU kernel in
`src/Simulation/CPU/kernel/Network.cpp`, the CUDA-side host code in
`libnemo/src/ConnectivityMatrix.cpp`, `libnemo/src/CudaSimulationImpl.cpp`,
`libnemo/src/CudaSimulation.cpp` and `libnemo/src/RuntimeData.cpp`) and proves
properties of the embedded code.

Conventions of the embedding:
* machine integers are modelled as `Nat`/`Int` with explicit reduction
  modulo `2^w` where overflow matters;
* the `float`/`double` membrane arithmetic is idealised over `ℚ` (the claims
  settled about it concern the structure and order of the computation, which
  is independent of rounding);
* per-neuron arrays are modelled as functions `ℕ → _`;
* the per-neuron RNG draw is an oracle parameter.
-/

namespace NeMo

/-! ## Fixed-point arithmetic

Weights and synaptic currents are stored in a signed 32-bit fixed-point
format `fix_t` (`fixedpoint.hpp`; the spec fixes it as a signed 32-bit
integer with `f` fractional bits).  The accumulation in
`deliverSpikesOne` is the plain C `+=` on that type, i.e. two's-complement
wrap-around addition.
-/

/-- Reduce an integer into the signed 32-bit range `[-2^31, 2^31)`
(two's-complement wrap-around). -/
def fix32 (x : ℤ) : ℤ := (x + 2 ^ 31) % 2 ^ 32 - 2 ^ 31

/-- The addition performed by `m_current.at(terminal.target) += terminal.weight`
in `nemo::cpu::Simulation::deliverSpikesOne`: plain signed 32-bit addition,
wrapping on overflow. -/
def fxAdd (a b : ℤ) : ℤ := fix32 (a + b)

/-- Modelled from the spec: the *saturating* fixed-point addition the spec
says is used when summing currents ("the clamped extreme value (no
wrap-around)").  Used only to compare against the code's `fxAdd`. -/
def fxAddSat (a b : ℤ) : ℤ :=
  if a + b < -(2 ^ 31) then -(2 ^ 31)
  else if 2 ^ 31 - 1 < a + b then 2 ^ 31 - 1
  else a + b

/-- `fx_toFloat(fx, fbits) = fx / 2^fbits` (conversion of a fixed-point
value back to a real number, idealised over `ℚ`). -/
def fx_toFloat (fx : ℤ) (fbits : ℕ) : ℚ := (fx : ℚ) / 2 ^ fbits

/-! ## Izhikevich neuron update (`nemo::cpu::Simulation::updateRange`)

The per-neuron body of `updateRange` (`libnemo/nemo/cpu/Simulation.cpp`,
lines 199-232; the older `nemo::cpu::Network::updateRange` has the same
structure).  `SUBSTEPS = 4`, `SUBSTEP_MULT = 0.25`.  State per neuron is
`(v, u, fired)`.
-/

/-- One sub-step of the Izhikevich integration:
`v += 0.25*((0.04*v + 5)*v + 140 - u + I)` followed by
`u += 0.25*(a*(b*v - u))` where the `u` line reads the already-updated `v`
(as in the source, which updates `m_v[n]` in place first). -/
def substep (a b I : ℚ) (vu : ℚ × ℚ) : ℚ × ℚ :=
  let v := vu.1 + 1/4 * ((4/100 * vu.1 + 5) * vu.1 + 140 - vu.2 + I)
  let u := vu.2 + 1/4 * (a * (b * v - vu.2))
  (v, u)

/-- One iteration of the `for(t=0; t<SUBSTEPS; ...)` loop body:
`if(!m_fired[n]) { <substep>; m_fired[n] = m_v[n] >= 30.0; }`. -/
def substepFired (a b I : ℚ) (s : ℚ × ℚ × Bool) : ℚ × ℚ × Bool :=
  if s.2.2 then s
  else
    let vu := substep a b I (s.1, s.2.1)
    (vu.1, vu.2, decide (30 ≤ vu.1))

/-- The four-sub-step integration loop of `updateRange` for one neuron,
starting from `m_fired[n] = 0`.  Returns `(v, u, fired)` as they stand
after the loop, before the stimulus OR and the after-spike reset. -/
def updateNeuron (a b I v u : ℚ) : ℚ × ℚ × Bool :=
  (substepFired a b I)^[4] (v, u, false)

/-- The tail of the `updateRange` body for one neuron:
`m_fired[n] |= m_fstim[n]`, then, if fired, the reset `v = c; u += d`.
Returns `(v, u, fired)`. -/
def updateNeuronPost (c d : ℚ) (fstim : Bool) (s : ℚ × ℚ × Bool) : ℚ × ℚ × Bool :=
  let fired := s.2.2 || fstim
  if fired then (c, s.2.1 + d, true) else (s.1, s.2.1, fired)

/-! ## Firing history (`m_recentFiring`)

`m_recentFiring[n] = (m_recentFiring[n] << 1) | (uint64_t) m_fired[n]`
(`libnemo/nemo/cpu/Simulation.cpp` line 224; identically in
`Network.cpp` line 229).  The word is a `uint64_t`; the shift drops
bit 63.  The vector is zero-initialised at construction.
-/

/-- One cycle's update of the 64-bit recent-firing word. -/
def historyStep (h : ℕ) (fired : Bool) : ℕ :=
  ((h <<< 1) % 2 ^ 64) ||| (if fired then 1 else 0)

/-- The recent-firing word of a neuron after the updates of cycles
`0, 1, …, t-1` have run, where `fire j` says whether the neuron fired in
cycle `j`.  `historyAfter fire 0 = 0` is the zero-initialised word. -/
def historyAfter (fire : ℕ → Bool) : ℕ → ℕ
  | 0 => 0
  | t + 1 => historyStep (historyAfter fire t) (fire t)

/-! ## Spike delivery (`nemo::cpu::Simulation::deliverSpikes`)

`deliverSpikes` masks each source's recent-firing word with
`validSpikes = ~(~0 << m_cm.maxDelay())` and repeatedly extracts the
lowest set bit (`shift = 1 + ctz64(f); delay += shift; f >>= shift`),
calling `deliverSpikesOne(source, delay)` which adds each terminal's
weight into `m_current` at the terminal's target.
-/

/-- A forward-matrix terminal `FAxonTerminal<fix_t>`: target neuron and
fixed-point weight. -/
structure FAxonTerminal where
  target : ℕ
  weight : ℤ
  deriving DecidableEq

/-- Count of trailing zero bits (the `ctz64` builtin); only ever applied
to nonzero words by the delivery loop. -/
def ctz64 (f : ℕ) : ℕ :=
  if h : f = 0 then 64
  else if f % 2 = 1 then 0
  else 1 + ctz64 (f / 2)
termination_by f
decreasing_by exact Nat.div_lt_self (Nat.pos_of_ne_zero h) one_lt_two

/-- `nemo::cpu::Simulation::deliverSpikesOne`: walk the row for
`(source, delay)` and add each terminal's weight into the current
accumulator of its target (`m_current.at(terminal.target) += terminal.weight`). -/
def deliverSpikesOne (row : List FAxonTerminal) (cur : ℕ → ℤ) : ℕ → ℤ :=
  row.foldl (fun c term => Function.update c term.target (fxAdd (c term.target) term.weight)) cur

/-- The `while(f)` loop of `deliverSpikes` for one source: extract the
lowest set bit of `f` to obtain a delay and deliver that row. -/
def deliverLoop (cm : ℕ → ℕ → List FAxonTerminal) (source : ℕ)
    (f delay : ℕ) (cur : ℕ → ℤ) : ℕ → ℤ :=
  if hf : f = 0 then cur
  else
    let shift := 1 + ctz64 f
    deliverLoop cm source (f >>> shift) (delay + shift)
      (deliverSpikesOne (cm source (delay + shift)) cur)
termination_by f
decreasing_by
  have h2 : 2 ≤ 2 ^ (1 + ctz64 f) := by
    calc 2 = 2 ^ 1 := rfl
      _ ≤ 2 ^ (1 + ctz64 f) := Nat.pow_le_pow_right (by norm_num) (by omega)
  have h3 : f / 2 ^ (1 + ctz64 f) ≤ f / 2 := Nat.div_le_div_left h2 (by norm_num)
  rw [Nat.shiftRight_eq_div_pow]
  exact lt_of_le_of_lt h3 (Nat.div_lt_self (Nat.pos_of_ne_zero hf) one_lt_two)

/-- The delays extracted by `deliverLoop`, in extraction order (an observer
of the same loop, used to state what the loop delivers). -/
def deliverDelays (f delay : ℕ) : List ℕ :=
  if hf : f = 0 then []
  else
    let shift := 1 + ctz64 f
    (delay + shift) :: deliverDelays (f >>> shift) (delay + shift)
termination_by f
decreasing_by
  have h2 : 2 ≤ 2 ^ (1 + ctz64 f) := by
    calc 2 = 2 ^ 1 := rfl
      _ ≤ 2 ^ (1 + ctz64 f) := Nat.pow_le_pow_right (by norm_num) (by omega)
  have h3 : f / 2 ^ (1 + ctz64 f) ≤ f / 2 := Nat.div_le_div_left h2 (by norm_num)
  rw [Nat.shiftRight_eq_div_pow]
  exact lt_of_le_of_lt h3 (Nat.div_lt_self (Nat.pos_of_ne_zero hf) one_lt_two)

/-- `validSpikes = ~(((uint64_t)(~0)) << m_cm.maxDelay())`: the 64-bit
complement of the all-ones word shifted left by `maxDelay`. -/
def validSpikes (maxDelay : ℕ) : ℕ :=
  (2 ^ 64 - 1) ^^^ (((2 ^ 64 - 1) <<< maxDelay) % 2 ^ 64)

/-- `nemo::cpu::Simulation::deliverSpikes`: for every source in index
order, deliver the spikes of `m_recentFiring[source] & validSpikes`. -/
def deliverSpikes (ncount : ℕ) (cm : ℕ → ℕ → List FAxonTerminal)
    (recentFiring : ℕ → ℕ) (maxDelay : ℕ) (cur : ℕ → ℤ) : ℕ → ℤ :=
  (List.range ncount).foldl
    (fun c source => deliverLoop cm source (recentFiring source &&& validSpikes maxDelay) 0 c)
    cur

/-! ## The CPU backend's step (`nemo::cpu::Simulation::step`)

State of `nemo::cpu::Simulation`, with the per-neuron arrays as functions
and the local/global mapper taken as the identity.  The RNG draw used for
thalamic noise is an oracle parameter `noise`.
-/

structure CpuSim where
  ncount : ℕ
  a : ℕ → ℚ
  b : ℕ → ℚ
  c : ℕ → ℚ
  d : ℕ → ℚ
  u : ℕ → ℚ
  v : ℕ → ℚ
  sigma : ℕ → ℚ
  valid : ℕ → Bool
  fired : ℕ → Bool
  recentFiring : ℕ → ℕ
  current : ℕ → ℤ
  fstim : ℕ → Bool
  cm : ℕ → ℕ → List FAxonTerminal
  maxDelay : ℕ
  fbits : ℕ

/-- The input current for neuron `n` in `updateRange`:
`current = fx_toFloat(m_current[n], fbits)`, plus
`m_sigma[n] * gaussian()` when `m_sigma[n] != 0`. -/
def neuronInput (s : CpuSim) (noise : ℕ → ℚ) (n : ℕ) : ℚ :=
  let current := fx_toFloat (s.current n) s.fbits
  if s.sigma n ≠ 0 then current + s.sigma n * noise n else current

/-- The complete `updateRange` body for one (valid) neuron: the four-sub-step
integration, then `m_fired[n] |= m_fstim[n]` and the after-spike reset. -/
def updatedNeuron (s : CpuSim) (noise : ℕ → ℚ) (n : ℕ) : ℚ × ℚ × Bool :=
  updateNeuronPost (s.c n) (s.d n) (s.fstim n)
    (updateNeuron (s.a n) (s.b n) (neuronInput s noise n) (s.v n) (s.u n))

/-- `nemo::cpu::Simulation::updateRange(0, m_neuronCount)` (the
single-threaded path): every valid neuron in range is updated (membrane
state, fired flag, recent-firing shift, current buffer zeroed after the
read); invalid neurons are skipped. -/
def updateRange (s : CpuSim) (noise : ℕ → ℚ) : CpuSim :=
  let act : ℕ → Prop := fun n => n < s.ncount ∧ s.valid n = true
  have : DecidablePred act := fun _ => instDecidableAnd
  { s with
    v := fun n => if act n then (updatedNeuron s noise n).1 else s.v n
    u := fun n => if act n then (updatedNeuron s noise n).2.1 else s.u n
    fired := fun n => if act n then (updatedNeuron s noise n).2.2 else s.fired n
    recentFiring := fun n =>
      if act n then historyStep (s.recentFiring n) (updatedNeuron s noise n).2.2
      else s.recentFiring n
    current := fun n => if act n then 0 else s.current n }

/-- `nemo::cpu::Simulation::setFiring`: collect the indices of the neurons
whose fired flag is set, in index order. -/
def setFiring (s : CpuSim) : List ℕ :=
  (List.range s.ncount).filter (fun n => s.fired n)

/-- `nemo::cpu::Simulation::step` (STDP disabled): deliver spikes into the
current buffer, run the neuron update, collect the firing list, clear the
firing stimulus.  Returns the new state and the cycle's firing list. -/
def stepSim (s : CpuSim) (noise : ℕ → ℚ) : CpuSim × List ℕ :=
  let s1 := { s with
    current := deliverSpikes s.ncount s.cm s.recentFiring s.maxDelay s.current }
  let s2 := updateRange s1 noise
  ({ s2 with fstim := fun _ => false }, setFiring s2)

/-! ## Error codes (`libnemo/base/nemo_error.h`) -/

inductive NemoError
  | invalidInput (msg : String)
  | unsupported (msg : String)
  deriving DecidableEq

/-- Observer: whether a fallible operation succeeded. -/
def exceptOk {e a : Type} (r : Except e a) : Bool :=
  match r with
  | .ok _ => true
  | .error _ => false

/-! ## The construction-time connectivity matrix of the CUDA backend
(`nemo::ConnectivityMatrix` in `libnemo/src/ConnectivityMatrix.cpp`) -/

/-- Modelled from the spec: `MAX_DELAY = 64` (the constant lives in
`connectivityMatrix.cu_h`, which is not in the tree; the spec fixes it at
64 so the delay window fits one 64-bit word). -/
def MAX_DELAY : ℕ := 64

/-- Construction-time state of `nemo::ConnectivityMatrix` as touched by
`addSynapse`: the host-side bundle map `mh_fcm`, the running maxima, and
the reverse-matrix entries (`RSMatrix::addSynapse` records
`(sp, sn, sidx, tn, delay)` under the target partition). -/
structure CudaCM where
  bundles : (ℕ × ℕ) → (ℕ × ℕ) → List (ℕ × ℚ × Bool)
  maxAbsWeight : ℚ
  maxPartitionIdx : ℕ
  maxDelay : ℕ
  rcm : ℕ → List (ℕ × ℕ × ℕ × ℕ × ℕ)

/-- `nemo::ConnectivityMatrix::addSynapse(sp, sn, delay, tp, tn, w, plastic)`:
rejects a delay of 0 or above `MAX_DELAY` before touching anything, then
appends the synapse to its bundle, raises the running maxima
(`m_maxAbsWeight = std::max(m_maxAbsWeight, w)` — note: no absolute value
is taken) and, for plastic synapses with `setReverse`, records the
reverse entry. -/
def CudaCM.addSynapse (cm : CudaCM) (setReverse : Bool)
    (sp sn delay tp tn : ℕ) (w : ℚ) (plastic : Bool) : Except NemoError CudaCM :=
  if delay > MAX_DELAY ∨ delay = 0 then
    .error (.invalidInput "delay out of range")
  else
    let bundle := cm.bundles (sp, sn) (tp, delay)
    let sidx := bundle.length
    .ok { bundles := fun sk tk =>
            if sk = (sp, sn) ∧ tk = (tp, delay) then bundle ++ [(tn, w, plastic)]
            else cm.bundles sk tk
          maxAbsWeight := max cm.maxAbsWeight w
          maxPartitionIdx := max cm.maxPartitionIdx (max sp tp)
          maxDelay := max cm.maxDelay delay
          rcm := fun p =>
            if setReverse && plastic then
              if p = tp then cm.rcm p ++ [(sp, sn, sidx, tn, delay)] else cm.rcm p
            else cm.rcm p }

/-- The running `m_maxAbsWeight` after adding synapses with the given
weights in order (initialised to `0.0` in the constructor, updated by
`std::max(m_maxAbsWeight, w)` per synapse). -/
def maxAbsWeightOf (ws : List ℚ) : ℚ :=
  ws.foldl (fun m w => max m w) 0

/-- `nemo::ConnectivityMatrix::setFractionalBits`:
`log2Ceil = ceil(log2(m_maxAbsWeight)); fbits = 31 - log2Ceil - 5`
(the subtraction carried out over ℤ; `ceil ∘ log2` is `Int.clog 2`). -/
def setFractionalBits (maxAbsWeight : ℚ) : ℤ :=
  31 - Int.clog 2 maxAbsWeight - 5

/-- Modelled from the spec: the fractional-bit count the spec prescribes,
`f = 31 − ceil(log2(max|w|)) − 5`, computed from the maximum *absolute*
weight of the network. -/
def specFractionalBits (ws : List ℚ) : ℤ :=
  31 - Int.clog 2 (maxAbsWeightOf (ws.map (fun w => |w|))) - 5

/-! ## The runtime connectivity matrix of the CPU backend
(`nemo::ConnectivityMatrix` in `libnemo/nemo/ConnectivityMatrix.cpp`) -/

/-- An `AxonTerminal<nidx_t, weight_t>` as passed to `setRow` (the
plastic flag is dropped by `Row`, which keeps only target and weight). -/
structure AxonTerminalW where
  target : ℕ
  weight : ℚ

/-- Modelled from the spec: `fx_toFix(x, fbits) = round(x · 2^fbits)`
(`fixedpoint.hpp` is not in the tree; the spec gives the conversion as
`fx = round(x · 2^f)`). -/
def fx_toFix (x : ℚ) (fbits : ℕ) : ℤ := round (x * 2 ^ fbits)

/-- State of the runtime `nemo::ConnectivityMatrix` as touched by
`setRow`: the row accumulator `m_acc` keyed by `(source, delay)`, the
per-source delay sets, the running max delay, and the fixed-point format. -/
structure CpuCM where
  acc : List ((ℕ × ℕ) × List FAxonTerminal)
  delays : ℕ → List ℕ
  maxDelay : ℕ
  fbits : ℕ

/-- `nemo::ConnectivityMatrix::setRow` (CPU backend, with the mapper the
identity): rejects `delay < 1`, rejects a second insertion for the same
`(source, delay)` key, otherwise stores the row (weights converted to
fixed point) and updates the delay set and max delay. -/
def CpuCM.setRow (cm : CpuCM) (source delay : ℕ) (ss : List AxonTerminalW) :
    Except NemoError CpuCM :=
  if delay < 1 then
    .error (.invalidInput "delay < 1")
  else if cm.acc.any (fun kv => kv.1 == (source, delay)) then
    .error (.invalidInput "Double insertion into connectivity matrix")
  else
    .ok { cm with
      acc := cm.acc ++
        [((source, delay), ss.map (fun t => ⟨t.target, fx_toFix t.weight cm.fbits⟩))]
      delays := fun sfrom =>
        if sfrom = source then cm.delays sfrom ++ [delay] else cm.delays sfrom
      maxDelay := max cm.maxDelay delay }

/-! ## `applyStdp` (`nemo::cuda::SimulationImpl::applyStdp`,
`RuntimeData::applyStdp`, `nemo::cuda::Simulation::applyStdp`) -/

/-- The STDP-relevant simulation state of the CUDA backend: whether an
STDP function is configured, the forward-matrix weight plane, and the
reverse-matrix weight-delta accumulator plane. -/
structure CudaStdpSim where
  stdpEnabled : Bool
  weights : List ℤ
  accumulators : List ℤ

/-- Modelled from the spec: `RSMatrix::clearStdpAccumulator` (its body is
not in the tree; only the declaration and the partition loop
`nemo::ConnectivityMatrix::clearStdpAccumulator` are) zeroes the
per-synapse weight-delta accumulator plane.  It touches no weight: the
reverse matrix holds only reverse addressing and the accumulator plane. -/
def clearStdpAccumulator (acc : List ℤ) : List ℤ :=
  acc.map (fun _ => 0)

/-- `applyStdp(reward)` on the CUDA backend: return immediately when no
STDP function is configured; with reward 0 only clear the accumulator;
otherwise invoke the device kernel (out of scope here, abstracted as the
parameter `kernel`). -/
def applyStdpCuda (kernel : CudaStdpSim → ℚ → CudaStdpSim)
    (s : CudaStdpSim) (reward : ℚ) : Except NemoError CudaStdpSim :=
  if ¬ s.stdpEnabled then .ok s
  else if reward = 0 then .ok { s with accumulators := clearStdpAccumulator s.accumulators }
  else .ok (kernel s reward)

/-- The error thrown unconditionally by `nemo::cpu::Simulation::applyStdp`. -/
def cpuApplyStdpError : NemoError :=
  .unsupported "nemo::cpu::Simulation::applyStdp is not implemented"

/-- `nemo::cpu::Simulation::applyStdp`: throws `NEMO_API_UNSUPPORTED`
before doing anything else, for every reward. -/
def cpuApplyStdp (_reward : ℚ) : Except NemoError Unit :=
  .error cpuApplyStdpError

/-! ## The cycle counter (`nemo::cuda::Simulation::step`,
`RuntimeData::stepSimulation`) -/

/-- The per-step state of the CUDA simulation as far as the cycle counter
is concerned: the 32-bit counter plus an abstract device payload. -/
structure CudaCycleSim where
  cycle : ℕ
  device : ℕ

/-- One `step()`: `if (m_cycle == ~0U) throw std::overflow_error(...)`
before anything else; otherwise `m_cycle += 1` and the kernel runs
(abstracted as `advance`). -/
def stepCuda (advance : ℕ → ℕ) (s : CudaCycleSim) : Except String CudaCycleSim :=
  if s.cycle = 2 ^ 32 - 1 then .error "Cycle counter overflow"
  else .ok { cycle := s.cycle + 1, device := advance s.device }

/-- `k` consecutive calls of `step()`. -/
def stepsCuda (advance : ℕ → ℕ) : ℕ → CudaCycleSim → Except String CudaCycleSim
  | 0, s => .ok s
  | k + 1, s => (stepCuda advance s).bind (stepsCuda advance k)

/-! # Theorems -/

/-! ## Facts about the delivery mask and accumulators -/

theorem validSpikes_eq (M : ℕ) (hM : M ≤ 64) : validSpikes M = 2 ^ M - 1 := by
  interval_cases M <;> decide

theorem land_validSpikes_testBit (h M p : ℕ) (hM : M ≤ 64) :
    (h &&& validSpikes M).testBit p = (h.testBit p && decide (p < M)) := by
  rw [Nat.testBit_and, validSpikes_eq M hM, Nat.testBit_two_pow_sub_one]

/-- Restricting a filtered range by an explicit bound. -/
theorem filter_range_decide (B M : ℕ) (hMB : M ≤ B) (q : ℕ → Bool) :
    (List.range B).filter (fun p => decide (p < M) && q p)
      = (List.range M).filter q := by
  rw [show B = M + (B - M) from by omega, List.range_add, List.filter_append]
  have h1 : (List.range M).filter (fun p => decide (p < M) && q p)
      = (List.range M).filter q :=
    List.filter_congr (fun p hp => by simp [List.mem_range.mp hp])
  have h2 : ((List.range (B - M)).map (M + ·)).filter (fun p => decide (p < M) && q p)
      = [] := by
    rw [List.filter_eq_nil_iff]
    intro p hp
    obtain ⟨x, _, rfl⟩ := List.mem_map.mp hp
    simp
  rw [h1, h2, List.append_nil]

/-- `deliverSpikesOne` at a given target accumulates, with the plain
32-bit add, exactly the weights of the row's terminals at that target,
in row order. -/
theorem deliverSpikesOne_apply (row : List FAxonTerminal) :
    ∀ (cur : ℕ → ℤ) (tgt : ℕ),
      deliverSpikesOne row cur tgt
        = ((row.filter (fun term => term.target == tgt)).map FAxonTerminal.weight).foldl
            fxAdd (cur tgt) := by
  induction row with
  | nil => intro cur tgt; rfl
  | cons term rest ih =>
      intro cur tgt
      have hstep : deliverSpikesOne (term :: rest) cur
          = deliverSpikesOne rest
              (Function.update cur term.target (fxAdd (cur term.target) term.weight)) := rfl
      rw [hstep, ih]
      by_cases h : term.target = tgt
      · subst h
        simp [List.filter_cons, Function.update_apply]
      · have hne : (term.target == tgt) = false := by simp [h]
        have h' : ¬(tgt = term.target) := fun e => h e.symm
        simp [List.filter_cons, hne, Function.update_apply, h']

/-! ## Bit-level facts about the delivery loop -/

theorem ctz64_spec (f : ℕ) (hf : f ≠ 0) :
    f.testBit (ctz64 f) = true ∧ ∀ j, j < ctz64 f → f.testBit j = false := by
  induction f using Nat.strong_induction_on with
  | _ f ih =>
    rw [ctz64]
    rcases hpar : f % 2 with _ | r
    · have hf2 : f / 2 ≠ 0 := by omega
      have hdiv : f / 2 < f := Nat.div_lt_self (Nat.pos_of_ne_zero hf) one_lt_two
      obtain ⟨h1, h2⟩ := ih (f / 2) hdiv hf2
      simp only [hf, dite_false, hpar]
      norm_num
      constructor
      · rw [Nat.add_comm 1 (ctz64 (f / 2)), Nat.testBit_add_one]
        exact h1
      · intro j hj
        cases j with
        | zero => simp [Nat.testBit_zero, hpar]
        | succ j =>
            rw [Nat.testBit_add_one]
            exact h2 j (by omega)
    · have hr : r = 0 := by omega
      subst hr
      simp only [hf, dite_false, hpar]
      norm_num
      simp [Nat.testBit_zero, hpar]

theorem shiftRight_ctz_lt (f : ℕ) (hf : f ≠ 0) : f >>> (1 + ctz64 f) < f := by
  have h2 : 2 ≤ 2 ^ (1 + ctz64 f) := by
    calc 2 = 2 ^ 1 := rfl
      _ ≤ 2 ^ (1 + ctz64 f) := Nat.pow_le_pow_right (by norm_num) (by omega)
  have h3 : f / 2 ^ (1 + ctz64 f) ≤ f / 2 := Nat.div_le_div_left h2 (by norm_num)
  rw [Nat.shiftRight_eq_div_pow]
  exact lt_of_le_of_lt h3 (Nat.div_lt_self (Nat.pos_of_ne_zero hf) one_lt_two)

/-- The delivery loop is the fold of `deliverSpikesOne` over the extracted
delays. -/
theorem deliverLoop_eq_foldl (cm : ℕ → ℕ → List FAxonTerminal) (source : ℕ)
    (f : ℕ) : ∀ delay cur, deliverLoop cm source f delay cur
      = (deliverDelays f delay).foldl (fun c dl => deliverSpikesOne (cm source dl) c) cur := by
  induction f using Nat.strong_induction_on with
  | _ f ih =>
    intro delay cur
    rw [deliverLoop, deliverDelays]
    by_cases hf : f = 0
    · simp [hf]
    · simp only [hf, dite_false]
      rw [ih _ (shiftRight_ctz_lt f hf)]
      simp

/-- The extracted delays are exactly the set-bit positions, shifted by
one past the running delay. -/
theorem deliverDelays_eq (f : ℕ) : ∀ B delay, f < 2 ^ B →
    deliverDelays f delay
      = ((List.range B).filter f.testBit).map (fun p => delay + p + 1) := by
  induction f using Nat.strong_induction_on with
  | _ f ih =>
    intro B delay hB
    by_cases hf : f = 0
    · subst hf
      rw [deliverDelays]
      simp [Nat.zero_testBit]
    · obtain ⟨hbit, hlow⟩ := ctz64_spec f hf
      set c := ctz64 f with hc
      have hcB : c < B := by
        by_contra hcon
        push_neg at hcon
        have hfc : f < 2 ^ c := lt_of_lt_of_le hB (Nat.pow_le_pow_right (by norm_num) hcon)
        rw [Nat.testBit_lt_two_pow hfc] at hbit
        exact Bool.false_ne_true hbit
      have hs : 1 + c = c + 1 := by omega
      have hshrink : f >>> (1 + c) < f := shiftRight_ctz_lt f hf
      have hless : f >>> (1 + c) < 2 ^ (B - (c + 1)) := by
        rw [Nat.shiftRight_eq_div_pow]
        rw [Nat.div_lt_iff_lt_mul (Nat.pos_pow_of_pos _ (by norm_num))]
        calc f < 2 ^ B := hB
          _ = 2 ^ (B - (c + 1)) * 2 ^ (1 + c) := by
              rw [← pow_add]
              congr 1
              omega
      rw [deliverDelays]
      simp only [hf, dite_false]
      rw [ih _ hshrink (B - (c + 1)) _ hless]
      -- decompose the filtered range at the lowest set bit
      have hrange : List.range B = List.range (c + 1) ++ (List.range (B - (c + 1))).map ((c + 1) + ·) := by
        rw [← List.range_add]
        congr 1
        omega
      have hhead : (List.range (c + 1)).filter f.testBit = [c] := by
        rw [List.range_succ, List.filter_append]
        have h1 : (List.range c).filter f.testBit = [] := by
          rw [List.filter_eq_nil_iff]
          intro p hp
          rw [hlow p (List.mem_range.mp hp)]
          exact Bool.false_ne_true
        rw [h1]
        simp [hbit]
      have htail : ((List.range (B - (c + 1))).map ((c + 1) + ·)).filter f.testBit
          = ((List.range (B - (c + 1))).filter (f >>> (c + 1)).testBit).map ((c + 1) + ·) := by
        rw [List.filter_map]
        congr 1
        apply List.filter_congr
        intro p _
        simp [Nat.testBit_shiftRight]
      rw [hrange, List.filter_append, hhead, htail]
      rw [List.map_append, List.map_map]
      simp only [List.map_cons, List.map_nil, List.singleton_append, hs]
      rw [show delay + (c + 1) = delay + c + 1 from by omega]
      congr 1
      apply List.map_congr_left
      intro p _
      simp only [Function.comp_apply]
      omega

/-- Helper for the `historyAfter` bit characterisation, placed with the
delivery lemmas that consume it. -/
theorem historyAfter_lt (fire : ℕ → Bool) (t : ℕ) :
    historyAfter fire t < 2 ^ 64 := by
  cases t with
  | zero => simp [historyAfter]
  | succ t =>
      have h1 : (historyAfter fire t <<< 1) % 2 ^ 64 < 2 ^ 64 :=
        Nat.mod_lt _ (by norm_num)
      have h2 : (if fire t then 1 else 0) < 2 ^ 64 := by split <;> norm_num
      calc historyAfter fire (t+1)
          = ((historyAfter fire t <<< 1) % 2 ^ 64) ||| (if fire t then 1 else 0) := rfl
        _ < 2 ^ 64 := Nat.or_lt_two_pow h1 h2

/-- Bit `k` of the recent-firing word after `t` recorded cycles is set iff
`k < t`, `k < 64` and the neuron fired in cycle `t - 1 - k`. -/
theorem historyAfter_testBit (fire : ℕ → Bool) (t k : ℕ) :
    (historyAfter fire t).testBit k
      = (decide (k < t) && decide (k < 64) && fire (t - 1 - k)) := by
  induction t generalizing k with
  | zero => simp [historyAfter]
  | succ t ih =>
      show (historyStep (historyAfter fire t) (fire t)).testBit k = _
      unfold historyStep
      rw [Nat.testBit_or, Nat.testBit_mod_two_pow, Nat.testBit_shiftLeft]
      cases k with
      | zero =>
          simp only [Nat.zero_sub, Nat.sub_zero]
          have : (if fire t then 1 else 0 : ℕ).testBit 0 = fire t := by
            split <;> simp_all
          simp [this]
      | succ k =>
          have hbit : (if fire t then 1 else 0 : ℕ).testBit (k+1) = false := by
            split <;> simp [Nat.testBit_succ]
          rw [hbit]
          simp only [Nat.add_sub_cancel]
          rw [ih k]
          have harith : t - (k + 1) = t - 1 - k := by omega
          rw [harith]
          by_cases h3 : k + 1 < 64
          · have h2 : k < 64 := by omega
            simp [h3, h2, Nat.succ_lt_succ_iff]
          · simp [h3]

/-- Composition: masking the recent-firing word of a source with
`validSpikes` and extracting delays yields exactly the delays
`1 ≤ d ≤ maxDelay` for which the source fired `d` cycles before the
current cycle `t`. -/
theorem deliverDelays_history (fire : ℕ → Bool) (t M : ℕ) (hM : M ≤ 64) :
    deliverDelays (historyAfter fire t &&& validSpikes M) 0
      = (List.range' 1 M).filter (fun dl => decide (dl ≤ t) && fire (t - dl)) := by
  have hlt : historyAfter fire t &&& validSpikes M < 2 ^ 64 :=
    lt_of_le_of_lt Nat.and_le_left (historyAfter_lt fire t)
  rw [deliverDelays_eq _ 64 0 hlt]
  have hpred : (List.range 64).filter (historyAfter fire t &&& validSpikes M).testBit
      = (List.range M).filter (fun p => decide (p < t) && fire (t - 1 - p)) := by
    have heq : ∀ p, (historyAfter fire t &&& validSpikes M).testBit p
        = (decide (p < M) && (decide (p < t) && fire (t - 1 - p))) := by
      intro p
      rw [land_validSpikes_testBit _ _ _ hM, historyAfter_testBit]
      by_cases h1 : p < t <;> by_cases h2 : p < 64 <;> by_cases h3 : p < M <;>
        simp [h1, h2, h3] <;> omega
    calc (List.range 64).filter (historyAfter fire t &&& validSpikes M).testBit
        = (List.range 64).filter (fun p => decide (p < M) && (decide (p < t) && fire (t - 1 - p))) :=
          List.filter_congr (fun p _ => heq p)
      _ = (List.range M).filter (fun p => decide (p < t) && fire (t - 1 - p)) :=
          filter_range_decide 64 M hM _
  rw [hpred]
  rw [List.range'_eq_map_range, List.filter_map]
  have hfil : (List.range M).filter ((fun dl => decide (dl ≤ t) && fire (t - dl)) ∘ (1 + ·))
      = (List.range M).filter (fun p => decide (p < t) && fire (t - 1 - p)) := by
    apply List.filter_congr
    intro p _
    simp only [Function.comp_apply]
    have e1 : (decide (1 + p ≤ t)) = (decide (p < t)) := by
      simp only [decide_eq_decide]
      omega
    have e2 : t - (1 + p) = t - 1 - p := by omega
    rw [e1, e2]
  rw [hfil]
  apply List.map_congr_left
  intro p _
  omega


/-! ## The Izhikevich sub-step loop -/

theorem substepFired_fired (a b I : ℚ) (s : ℚ × ℚ × Bool) (h : s.2.2 = true) :
    substepFired a b I s = s := by
  simp [substepFired, h]

theorem iterate_fired (a b I : ℚ) (j : ℕ) (s : ℚ × ℚ × Bool) (h : s.2.2 = true) :
    (substepFired a b I)^[j] s = s := by
  induction j with
  | zero => rfl
  | succ j ih => rw [Function.iterate_succ_apply, substepFired_fired a b I s h]; exact ih

theorem substepFired_notFired (a b I : ℚ) (v u : ℚ) :
    substepFired a b I (v, u, false)
      = ((substep a b I (v, u)).1, (substep a b I (v, u)).2,
          decide (30 ≤ (substep a b I (v, u)).1)) := by
  simp [substepFired]

/-- While no sub-step has fired, the loop is the plain iteration of the
sub-step map. -/
theorem iterate_notFired (a b I : ℚ) (vu : ℚ × ℚ) (j : ℕ) :
    (∀ i, 1 ≤ i → i ≤ j → ((substep a b I)^[i] vu).1 < 30) →
      (substepFired a b I)^[j] (vu.1, vu.2, false)
        = (((substep a b I)^[j] vu).1, ((substep a b I)^[j] vu).2, false) := by
  induction j with
  | zero => intro _; rfl
  | succ j ih =>
      intro h
      have hsucc : (substep a b I)^[j + 1] vu = substep a b I ((substep a b I)^[j] vu) :=
        Function.iterate_succ_apply' _ _ _
      rw [Function.iterate_succ_apply']
      rw [ih (fun i h1 h2 => h i h1 (by omega))]
      rw [substepFired_notFired, Prod.mk.eta, hsucc]
      have hlt : (substep a b I ((substep a b I)^[j] vu)).1 < 30 := by
        rw [← hsucc]
        exact h (j+1) (by omega) (le_refl _)
      rw [decide_eq_false (not_le.mpr hlt)]

/-! ## Claim theorems -/

/-- C1: for a valid neuron whose fired flag starts the cycle clear, the
update performs the sub-steps `v += 0.25*((0.04*v+5)*v+140-u+I);
u += 0.25*(a*(b*v-u))` in order with the same input current `I`
throughout; as soon as `v >= 30` after a sub-step the fired flag is set
and no further sub-step acts; otherwise exactly four sub-steps run. -/
theorem izhikevich_substeps_correct (a b I v u : ℚ) :
    (∀ k0, 1 ≤ k0 → k0 ≤ 4 → 30 ≤ ((substep a b I)^[k0] (v, u)).1 →
      (∀ j, 1 ≤ j → j < k0 → ((substep a b I)^[j] (v, u)).1 < 30) →
      updateNeuron a b I v u
        = (((substep a b I)^[k0] (v, u)).1, ((substep a b I)^[k0] (v, u)).2, true))
    ∧ ((∀ j, 1 ≤ j → j ≤ 4 → ((substep a b I)^[j] (v, u)).1 < 30) →
      updateNeuron a b I v u
        = (((substep a b I)^[4] (v, u)).1, ((substep a b I)^[4] (v, u)).2, false)) := by
  constructor
  · intro k0 hk1 hk4 hfire hbefore
    obtain ⟨k1, rfl⟩ : ∃ k1, k0 = k1 + 1 := ⟨k0 - 1, by omega⟩
    have hstepk : (substepFired a b I)^[k1 + 1] (v, u, false)
        = (((substep a b I)^[k1+1] (v, u)).1, ((substep a b I)^[k1+1] (v, u)).2, true) := by
      have hsucc : (substep a b I)^[k1 + 1] (v, u) = substep a b I ((substep a b I)^[k1] (v, u)) :=
        Function.iterate_succ_apply' _ _ _
      rw [Function.iterate_succ_apply']
      rw [iterate_notFired a b I (v, u) k1 (fun i h1 h2 => hbefore i h1 (by omega))]
      rw [substepFired_notFired, Prod.mk.eta, hsucc]
      have hfire2 : 30 ≤ (substep a b I ((substep a b I)^[k1] (v, u))).1 := by
        rw [← hsucc]
        exact hfire
      rw [decide_eq_true hfire2]
    have hsplit : (substepFired a b I)^[4] (v, u, false)
        = (substepFired a b I)^[4 - (k1 + 1)] ((substepFired a b I)^[k1 + 1] (v, u, false)) := by
      rw [← Function.iterate_add_apply]
      congr 1
      omega
    show (substepFired a b I)^[4] (v, u, false) = _
    rw [hsplit, hstepk, iterate_fired _ _ _ _ _ rfl]
  · intro hnone
    exact iterate_notFired a b I (v, u) 4 hnone

/-- C1 witness: with `a = b = I = 0` and `v = u = 0` the first sub-step
drives `v` to 35 ≥ 30, so the neuron fires after sub-step 1. -/
theorem izhikevich_substeps_correct_witness :
    (30 : ℚ) ≤ ((substep 0 0 0)^[1] ((0 : ℚ), (0 : ℚ))).1
    ∧ updateNeuron 0 0 0 0 0
        = (((substep 0 0 0)^[1] ((0 : ℚ), (0 : ℚ))).1,
           ((substep 0 0 0)^[1] ((0 : ℚ), (0 : ℚ))).2, true) :=
  ⟨by norm_num [substep], (izhikevich_substeps_correct 0 0 0 0 0).1 1 (by norm_num) (by norm_num)
    (by norm_num [substep]) (fun j h1 h2 => absurd h2 (by omega))⟩

/-- C2: delivery for a source with recorded firing history delivers, in
increasing delay order, exactly the rows `(s, d)` with `1 ≤ d ≤ maxDelay`
for which the source fired at cycle `t - d` (bits older than `maxDelay`
are masked out and never delivered), and each delivered row adds the
weight of every terminal to the accumulator of that terminal's target. -/
theorem spike_delivery_window_correct (cm : ℕ → ℕ → List FAxonTerminal) (s : ℕ)
    (fire : ℕ → Bool) (M t : ℕ) (hM : M ≤ 64) (cur : ℕ → ℤ) :
    deliverLoop cm s (historyAfter fire t &&& validSpikes M) 0 cur
      = ((List.range' 1 M).filter (fun dl => decide (dl ≤ t) && fire (t - dl))).foldl
          (fun c dl => deliverSpikesOne (cm s dl) c) cur
    ∧ ∀ (row : List FAxonTerminal) (c0 : ℕ → ℤ) (tgt : ℕ),
        deliverSpikesOne row c0 tgt
          = ((row.filter (fun term => term.target == tgt)).map FAxonTerminal.weight).foldl
              fxAdd (c0 tgt) := by
  constructor
  · rw [deliverLoop_eq_foldl, deliverDelays_history fire t M hM]
  · intro row c0 tgt
    exact deliverSpikesOne_apply row c0 tgt

/-- C2 witness: a source firing at cycle 1 with a single synapse of delay
2 and weight 7 delivers 7 into its target's accumulator at cycle 3. -/
theorem spike_delivery_window_correct_witness :
    (3 : ℕ) ≤ 64
    ∧ deliverLoop (fun _ d => if d = 2 then [⟨5, 7⟩] else []) 0
        (historyAfter (fun j => j == 1) 3 &&& validSpikes 3) 0 (fun _ => 0) 5 = 7 :=
  ⟨by norm_num, by
    rw [(spike_delivery_window_correct (fun _ d => if d = 2 then [⟨5, 7⟩] else []) 0
      (fun j => j == 1) 3 3 (by norm_num) (fun _ => 0)).1]
    decide⟩

/-- C3: the recent-firing word is the shift register
`history := (history << 1) | fired`, and therefore bit `k` (k < 64) of the
word holding the recorded cycles `0..t` is set iff the neuron fired at
cycle `t - k`. -/
theorem firing_history_invariant (fire : ℕ → Bool) (t k : ℕ) (hk : k < 64) :
    historyAfter fire (t + 1) = historyStep (historyAfter fire t) (fire t)
    ∧ (historyAfter fire (t + 1)).testBit k = (decide (k ≤ t) && fire (t - k)) := by
  refine ⟨rfl, ?_⟩
  rw [historyAfter_testBit]
  have e1 : t + 1 - 1 - k = t - k := by omega
  rw [e1]
  by_cases h1 : k ≤ t
  · have h2 : k < t + 1 := by omega
    simp [h1, h2, hk]
  · have h2 : ¬ (k < t + 1) := by omega
    simp [h1, h2, hk]

/-- C3 witness: after recording cycles 0..3 of a neuron that fired at
cycle 2 only, bit 1 of the history word is set (3 − 1 = 2). -/
theorem firing_history_invariant_witness :
    (1 : ℕ) < 64
    ∧ (historyAfter (fun j => j == 2) (3 + 1)).testBit 1
        = (decide (1 ≤ 3) && ((3 - 1 : ℕ) == 2)) :=
  ⟨by norm_num, (firing_history_invariant (fun j => j == 2) 3 1 (by norm_num)).2⟩

/-- C4 counterexample: at accumulator `2^31 - 1` and weight 1 the
delivery add of the code wraps to `-2^31`; the saturating add the claim
asserts would give `2^31 - 1`. -/
theorem saturating_add_counterexample :
    deliverSpikesOne [⟨0, 1⟩] (fun _ => 2 ^ 31 - 1) 0 = -(2 ^ 31)
    ∧ fxAddSat (2 ^ 31 - 1) 1 = 2 ^ 31 - 1
    ∧ (-(2 ^ 31) : ℤ) ≠ 2 ^ 31 - 1 := by
  refine ⟨?_, by norm_num [fxAddSat], by norm_num⟩
  show deliverSpikesOne [⟨0, 1⟩] (fun _ => 2 ^ 31 - 1) 0 = -(2 ^ 31)
  rw [deliverSpikesOne_apply]
  norm_num [fxAdd, fix32]

/-- C4 amended: the delivery into a target's accumulator is the plain
signed 32-bit add: the exact fixed-point sum when it fits the signed
32-bit range, and the wrapped (mod 2^32) value, not a clamped one, when
it does not. -/
theorem delivery_add_wraps (a w : ℤ)
    (ha1 : -(2 ^ 31) ≤ a) (ha2 : a < 2 ^ 31) (hw1 : -(2 ^ 31) ≤ w) (hw2 : w < 2 ^ 31) :
    deliverSpikesOne [⟨0, w⟩] (fun _ => a) 0
      = (if a + w < -(2 ^ 31) then a + w + 2 ^ 32
         else if 2 ^ 31 ≤ a + w then a + w - 2 ^ 32
         else a + w) := by
  rw [deliverSpikesOne_apply]
  show List.foldl fxAdd _ _ = _
  have hfold : List.foldl fxAdd ((fun _ => a) 0)
      (List.map FAxonTerminal.weight (List.filter (fun term => term.target == 0)
        [⟨0, w⟩])) = fxAdd a w := rfl
  rw [hfold]
  unfold fxAdd fix32
  have h31 : (2 : ℤ) ^ 31 = 2147483648 := by norm_num
  have h32 : (2 : ℤ) ^ 32 = 4294967296 := by norm_num
  rw [h31, h32] at *
  omega

/-- C4 amended witness: 5 + 7 fits, so the delivered accumulator is
exactly 12. -/
theorem delivery_add_wraps_witness :
    (-(2 ^ 31) : ℤ) ≤ 5 ∧ (5 : ℤ) < 2 ^ 31 ∧ (-(2 ^ 31) : ℤ) ≤ 7 ∧ (7 : ℤ) < 2 ^ 31
    ∧ deliverSpikesOne [⟨0, 7⟩] (fun _ => 5) 0
        = (if (5 : ℤ) + 7 < -(2 ^ 31) then 5 + 7 + 2 ^ 32
           else if (2 : ℤ) ^ 31 ≤ 5 + 7 then 5 + 7 - 2 ^ 32
           else 5 + 7) :=
  ⟨by norm_num, by norm_num, by norm_num, by norm_num,
    delivery_add_wraps 5 7 (by norm_num) (by norm_num) (by norm_num) (by norm_num)⟩

/-- Stepping from any reachable cycle count: `k` further steps succeed
iff they stay within the 32-bit counter. -/
theorem stepsCuda_ok_iff (advance : ℕ → ℕ) (k : ℕ) :
    ∀ (c dev : ℕ), c ≤ 2 ^ 32 - 1 →
      ((∃ sNext, stepsCuda advance k ⟨c, dev⟩ = .ok sNext) ↔ c + k ≤ 2 ^ 32 - 1) := by
  induction k with
  | zero =>
      intro c dev hc
      constructor
      · intro _; omega
      · intro _; exact ⟨_, rfl⟩
  | succ k ih =>
      intro c dev hc
      by_cases hmax : c = 2 ^ 32 - 1
      · subst hmax
        constructor
        · rintro ⟨s1, hs1⟩
          rw [show stepsCuda advance (k + 1) ⟨2 ^ 32 - 1, dev⟩
              = (stepCuda advance ⟨2 ^ 32 - 1, dev⟩).bind (stepsCuda advance k) from rfl] at hs1
          rw [show stepCuda advance ⟨2 ^ 32 - 1, dev⟩ = .error "Cycle counter overflow" from by
            unfold stepCuda
            rw [if_pos rfl]] at hs1
          exact absurd hs1 (by simp [Except.bind])
        · intro hk; omega
      · have hstep : stepCuda advance ⟨c, dev⟩
            = .ok ⟨c + 1, advance dev⟩ := by
          unfold stepCuda
          rw [if_neg hmax]
        have hbind : stepsCuda advance (k + 1) ⟨c, dev⟩
            = stepsCuda advance k ⟨c + 1, advance dev⟩ := by
          show (stepCuda advance ⟨c, dev⟩).bind (stepsCuda advance k) = _
          rw [hstep]
          rfl
        rw [hbind, ih (c + 1) (advance dev) (by omega)]
        omega


/-- C10: each successful `step()` increments the 32-bit cycle counter by
exactly one; a call with the counter at 2^32 − 1 raises the overflow
error before the kernel runs; from a fresh simulation (counter 0) exactly
2^32 − 1 steps can succeed. -/
theorem cycle_counter_overflow (advance : ℕ → ℕ) (s : CudaCycleSim) (k dev0 : ℕ) :
    (∀ sNext, stepCuda advance s = .ok sNext → sNext.cycle = s.cycle + 1)
    ∧ (s.cycle = 2 ^ 32 - 1 → stepCuda advance s = .error "Cycle counter overflow")
    ∧ ((∃ sNext, stepsCuda advance k ⟨0, dev0⟩ = .ok sNext) ↔ k ≤ 2 ^ 32 - 1) := by
  refine ⟨?_, ?_, ?_⟩
  · intro sNext h
    unfold stepCuda at h
    by_cases hc : s.cycle = 2 ^ 32 - 1
    · rw [if_pos hc] at h
      exact absurd h (by simp)
    · rw [if_neg hc] at h
      injection h with h2
      rw [← h2]
  · intro hc
    unfold stepCuda
    rw [if_pos hc]
  · rw [stepsCuda_ok_iff advance k 0 dev0 (by norm_num)]
    omega

/-- C10 witness: one step from a fresh simulation succeeds. -/
theorem cycle_counter_overflow_witness :
    ∃ sNext, stepsCuda (fun dv => dv) 1 ⟨0, 0⟩ = .ok sNext :=
  (cycle_counter_overflow (fun dv => dv) ⟨0, 0⟩ 1 0).2.2.mpr (by norm_num)

/-- C5: with STDP configured, `apply_stdp(0.0)` succeeds, changes no
weight, and leaves every per-synapse accumulator zero. -/
theorem apply_stdp_zero_clears (kernel : CudaStdpSim → ℚ → CudaStdpSim)
    (s : CudaStdpSim) (hstdp : s.stdpEnabled = true) :
    applyStdpCuda kernel s 0
      = .ok { s with accumulators := clearStdpAccumulator s.accumulators }
    ∧ (∀ sNext, applyStdpCuda kernel s 0 = .ok sNext →
        sNext.weights = s.weights ∧ ∀ acc ∈ sNext.accumulators, acc = 0) := by
  have h1 : applyStdpCuda kernel s 0
      = .ok { s with accumulators := clearStdpAccumulator s.accumulators } := by
    unfold applyStdpCuda
    rw [hstdp]
    simp
  refine ⟨h1, ?_⟩
  intro sNext h
  rw [h1] at h
  injection h with h2
  rw [← h2]
  refine ⟨rfl, ?_⟩
  intro acc hacc
  unfold clearStdpAccumulator at hacc
  obtain ⟨x, _, hx⟩ := List.mem_map.mp hacc
  exact hx.symm

/-- C5 witness: a concrete STDP-enabled state with weights [3, −5] and
accumulators [7, 2]. -/
theorem apply_stdp_zero_clears_witness :
    applyStdpCuda (fun st _ => st) ⟨true, [3, -5], [7, 2]⟩ 0
      = .ok ⟨true, [3, -5], [0, 0]⟩ := by
  have h := (apply_stdp_zero_clears (fun st _ => st) ⟨true, [3, -5], [7, 2]⟩ rfl).1
  simpa [clearStdpAccumulator] using h

/-- C6 counterexample: the CPU backend's `applyStdp` raises
`NEMO_API_UNSUPPORTED` for reward 0 (it does so unconditionally, whether
or not STDP is configured), so `apply_stdp` on the CPU backend is not a
no-op returning without error. -/
theorem apply_stdp_cpu_throws :
    cpuApplyStdp 0 = .error cpuApplyStdpError ∧ cpuApplyStdp 0 ≠ .ok () :=
  ⟨rfl, fun h => Except.noConfusion h⟩

/-- C6 amended: on the CUDA backends (`RuntimeData::applyStdp`,
`nemo::cuda::Simulation::applyStdp`, `SimulationImpl::applyStdp`),
`apply_stdp` with no STDP function configured returns without error and
leaves the simulation unchanged, for every reward; the CPU backend
instead fails with Unsupported for every reward. -/
theorem apply_stdp_no_stdp_noop (kernel : CudaStdpSim → ℚ → CudaStdpSim)
    (s : CudaStdpSim) (reward : ℚ) (h : s.stdpEnabled = false) :
    applyStdpCuda kernel s reward = .ok s
    ∧ cpuApplyStdp reward = .error cpuApplyStdpError := by
  refine ⟨?_, rfl⟩
  unfold applyStdpCuda
  rw [h]
  simp

/-- C6 amended witness: a concrete no-STDP state is returned unchanged. -/
theorem apply_stdp_no_stdp_noop_witness :
    applyStdpCuda (fun st _ => st) ⟨false, [3], [7]⟩ 5 = .ok ⟨false, [3], [7]⟩ :=
  (apply_stdp_no_stdp_noop (fun st _ => st) ⟨false, [3], [7]⟩ 5 rfl).1

/-- C7: at the weight multiset {1.0, −100.0} the code's running maximum
(`std::max` over the signed weights, no absolute value) is 1, so
`setFractionalBits` picks f = 31 − ceil(log2 1) − 5 = 26; the claim's
formula over max |w| = 100 gives f = 31 − 7 − 5 = 19.  The code
contradicts the variable's own name `m_maxAbsWeight` and the spec. -/
theorem fractional_bits_ignore_negative_weights :
    maxAbsWeightOf [1, -100] = 1
    ∧ setFractionalBits (maxAbsWeightOf [1, -100]) = 26
    ∧ specFractionalBits [1, -100] = 19
    ∧ setFractionalBits (maxAbsWeightOf [1, -100]) ≠ specFractionalBits [1, -100] := by
  have h1 : maxAbsWeightOf [1, -100] = 1 := by
    norm_num [maxAbsWeightOf]
  have h100 : maxAbsWeightOf (List.map (fun w => |w|) [1, -100]) = 100 := by
    norm_num [maxAbsWeightOf]
  have hclog1 : Int.clog 2 (1 : ℚ) = 0 := Int.clog_one_right 2
  have hclog100 : Int.clog 2 (100 : ℚ) = 7 := by
    rw [show (100 : ℚ) = ((100 : ℕ) : ℚ) from by norm_num, Int.clog_natCast]
    have ha : Nat.clog 2 100 ≤ 7 := (Nat.le_pow_iff_clog_le (by norm_num)).mp (by norm_num)
    have hb : ¬ Nat.clog 2 100 ≤ 6 := by
      intro hcon
      have := (Nat.le_pow_iff_clog_le (by norm_num)).mpr hcon
      norm_num at this
    omega
  have h2 : setFractionalBits (maxAbsWeightOf [1, -100]) = 26 := by
    rw [h1]
    unfold setFractionalBits
    rw [hclog1]
    norm_num
  have h3 : specFractionalBits [1, -100] = 19 := by
    unfold specFractionalBits
    rw [h100]
    rw [hclog100]
    norm_num
  exact ⟨h1, h2, h3, by rw [h2, h3]; norm_num⟩

/-- C8: a valid neuron in the firing stimulus has its fired flag set for
the cycle regardless of membrane state, appears in the step's firing
list, and receives the after-spike reset `v := c`, `u := u + d` (with `u`
the post-integration recovery value). -/
theorem forced_firing_correct (s : CpuSim) (noise : ℕ → ℚ) (n : ℕ)
    (hn : n < s.ncount) (hv : s.valid n = true) (hf : s.fstim n = true) :
    (stepSim s noise).1.fired n = true
    ∧ n ∈ (stepSim s noise).2
    ∧ (stepSim s noise).1.v n = s.c n
    ∧ (stepSim s noise).1.u n
        = (updateNeuron (s.a n) (s.b n)
            (neuronInput { s with
              current := deliverSpikes s.ncount s.cm s.recentFiring s.maxDelay s.current }
              noise n)
            (s.v n) (s.u n)).2.1 + s.d n := by
  have hfired : (stepSim s noise).1.fired n = true := by
    simp only [stepSim, updateRange, updatedNeuron, updateNeuronPost]
    simp [hn, hv, hf]
  refine ⟨hfired, ?_, ?_, ?_⟩
  · show n ∈ setFiring _
    unfold setFiring
    apply List.mem_filter.mpr
    exact ⟨List.mem_range.mpr hn, hfired⟩
  · simp only [stepSim, updateRange, updatedNeuron, updateNeuronPost]
    simp [hn, hv, hf]
  · simp only [stepSim, updateRange, updatedNeuron, updateNeuronPost]
    simp [hn, hv, hf]

/-- C8 witness: a one-neuron simulation with the stimulus set fires and
is reset. -/
theorem forced_firing_correct_witness :
    (stepSim ⟨1, fun _ => 0, fun _ => 0, fun _ => -65, fun _ => 8, fun _ => 0,
        fun _ => 0, fun _ => 0, fun _ => true, fun _ => false, fun _ => 0,
        fun _ => 0, fun _ => true, fun _ _ => [], 1, 0⟩ (fun _ => 0)).1.fired 0 = true
    ∧ 0 ∈ (stepSim ⟨1, fun _ => 0, fun _ => 0, fun _ => -65, fun _ => 8, fun _ => 0,
        fun _ => 0, fun _ => 0, fun _ => true, fun _ => false, fun _ => 0,
        fun _ => 0, fun _ => true, fun _ _ => [], 1, 0⟩ (fun _ => 0)).2 :=
  ⟨(forced_firing_correct _ (fun _ => 0) 0 (by norm_num) rfl rfl).1,
   (forced_firing_correct _ (fun _ => 0) 0 (by norm_num) rfl rfl).2.1⟩

/-- C9 counterexample: the runtime `setRow` accepts a delay of 65 (above
MAX_DELAY = 64) without error, and fails with InvalidInput on a duplicate
(source, delay) row whose delay is within range — so "fails iff the delay
is outside [1, MAX_DELAY]" does not hold of the code. -/
theorem add_synapse_delay_counterexample :
    exceptOk (CpuCM.setRow ⟨[], fun _ => [], 0, 0⟩ 0 65 []) = true
    ∧ 65 > MAX_DELAY
    ∧ CpuCM.setRow ⟨[((0, 1), [])], fun _ => [], 1, 0⟩ 0 1 []
        = .error (.invalidInput "Double insertion into connectivity matrix")
    ∧ (1 ≥ 1 ∧ 1 ≤ MAX_DELAY) :=
  ⟨rfl, by norm_num [MAX_DELAY], rfl, by norm_num [MAX_DELAY]⟩

/-- C9 amended: at construction time, `addSynapse` (CUDA backends) fails
iff the delay is 0 or above MAX_DELAY = 64, and the check precedes every
mutation so a failed call leaves the matrix unchanged; the runtime
`setRow` of the CPU backend rejects only `delay < 1` and double insertion
of an existing (source, delay) row, and accepts delays above MAX_DELAY. -/
theorem add_synapse_delay_amended (cm : CudaCM) (setReverse : Bool)
    (sp sn delay tp tn : ℕ) (w : ℚ) (plastic : Bool)
    (cpu : CpuCM) (source d2 : ℕ) (ss : List AxonTerminalW) :
    ((∃ e, cm.addSynapse setReverse sp sn delay tp tn w plastic = .error e)
      ↔ (delay > MAX_DELAY ∨ delay = 0))
    ∧ ((∃ e, cpu.setRow source d2 ss = .error e)
      ↔ (d2 < 1 ∨ cpu.acc.any (fun kv => kv.1 == (source, d2)) = true)) := by
  constructor
  · by_cases hcond : delay > MAX_DELAY ∨ delay = 0
    · simp [CudaCM.addSynapse, hcond]
    · simp [CudaCM.addSynapse, hcond]
  · by_cases h1 : d2 < 1
    · simp [CpuCM.setRow, h1]
    · by_cases h2 : cpu.acc.any (fun kv => kv.1 == (source, d2)) = true
      · simp [CpuCM.setRow, h1, h2]
      · simp [CpuCM.setRow, h1, h2]

/-- C9 amended witness: delay 65 is rejected by the construction-time
`addSynapse`. -/
theorem add_synapse_delay_amended_witness :
    ∃ e, CudaCM.addSynapse ⟨fun _ _ => [], 0, 0, 0, fun _ => []⟩ false 0 0 65 0 0 1 false
      = .error e :=
  (add_synapse_delay_amended ⟨fun _ _ => [], 0, 0, 0, fun _ => []⟩ false 0 0 65 0 0 1 false
    ⟨[], fun _ => [], 0, 0⟩ 0 1 []).1.mpr (by norm_num [MAX_DELAY])

end NeMo
